import Mathlib

/-!
Shallow embedding of the dsntnn library (src/dsntnn/__init__.py).

A batched n-dimensional tensor with spatial sizes `size : Fin n → ℕ`
(outermost axis first, like the torch shape) and batch index type `B` is
embedded as a function `B → Idx size → K` over a field `K`; the exact real
semantics of the float code is obtained at `K := ℝ`, with the exponential
function passed explicitly as `Real.exp` where the code calls `exp`.
-/

open Finset

/-- Multi-index into an n-dimensional grid with the given axis sizes
(outermost axis first, matching the tensor shape). -/
abbrev Idx {n : ℕ} (size : Fin n → ℕ) : Type := (i : Fin n) → Fin (size i)

/-- Axis reversal: coordinate component k of the stacked output corresponds
to tensor dimension -(k+1), that is spatial axis n-1-k (innermost axis
first, the x, y, z, ... convention). -/
def finRev {n : ℕ} (k : Fin n) : Fin n :=
  ⟨n - 1 - (k : ℕ), by have := k.isLt; omega⟩

/-- Value of cell i of the length-l normalized linspace built by
the function normalized linspace of the source: torch.linspace from
-(l-1)/l to (l-1)/l with l points, so cell i holds -(l-1)/l + i*(2/l). -/
def normalized_linspace_val (K : Type) [Field K] (l i : ℕ) : K :=
  -(((l : K) - 1) / l) + (i : K) * (2 / l)

/-- The normalized linspace as a vector of length l. -/
def normalized_linspace (K : Type) [Field K] (l : ℕ) : List K :=
  List.ofFn (fun i : Fin l => normalized_linspace_val K l (i : ℕ))

/-- Marginal distribution along axis d of a batched heatmap: the sum of the
heatmap over every spatial axis except d (the summed tensor of the
source function coord expectation). -/
def marginal {n : ℕ} {B K : Type} [AddCommMonoid K] (size : Fin n → ℕ)
    (H : B → Idx size → K) (d : Fin n) (b : B) (i : Fin (size d)) : K :=
  ∑ v : Idx size, if v d = i then H b v else 0

/-- Coordinate expectation along axis d: dot product of the marginal along d
with the (optionally transformed) normalized linspace of that axis.
This is E[transform(X)] under the heatmap as a probability mass function. -/
def coord_expectation {n : ℕ} {B K : Type} [Field K] (size : Fin n → ℕ)
    (H : B → Idx size → K) (d : Fin n) (transform : K → K) (b : B) : K :=
  ∑ i : Fin (size d),
    marginal size H d b i * transform (normalized_linspace_val K (size d) (i : ℕ))

/-- Coordinate variance along axis d: first mu = E[X], then
Var = E[(X - mu)^2] with mu held fixed as a per-sample constant. -/
def coord_variance {n : ℕ} {B K : Type} [Field K] (size : Fin n → ℕ)
    (H : B → Idx size → K) (d : Fin n) (b : B) : K :=
  coord_expectation size H d
    (fun x => (x - coord_expectation size H d id b) ^ 2) b

/-- Differentiable spatial to numerical transform: component k of the output
is the coordinate expectation along tensor dimension -(k+1), so the
coordinate vector is ordered innermost-axis-first (x, y, z, ...). -/
def dsnt {n : ℕ} {B K : Type} [Field K] (size : Fin n → ℕ)
    (H : B → Idx size → K) (b : B) (k : Fin n) : K :=
  coord_expectation size H (finRev k) id b

/-- One-hot heatmap putting all probability mass on the single grid cell v0. -/
def onehot (K : Type) [Zero K] [One K] {n : ℕ} (size : Fin n → ℕ)
    (v0 : Idx size) (v : Idx size) : K :=
  if v = v0 then 1 else 0

/-- Average of per-location losses: with a mask, multiply the losses by the
mask and divide their sum by the mask sum clamped below by 1; without a
mask, divide the sum by the element count clamped below by 1. -/
def average_loss {K : Type} [LinearOrderedField K]
    (losses : List K) (mask : Option (List K)) : K :=
  match mask with
  | some m => (List.zipWith (fun a c => a * c) losses m).sum / max m.sum 1
  | none => losses.sum / ((max losses.length 1 : ℕ) : K)

/-- Softmax over the flattened spatial extent of each batch slice: the
source flattens the last ndims axes, applies softmax along the flattened
axis and reshapes back, which at each cell yields E at the activation
divided by the sum of E over the whole spatial extent of that slice. -/
def flat_softmax {n : ℕ} {B : Type} (K : Type) [Field K] (E : K → K)
    (size : Fin n → ℕ) (H : B → Idx size → K) (b : B) (v : Idx size) : K :=
  E (H b v) / ∑ w : Idx size, E (H b w)

/-- Per-axis exponent coefficient of make gauss: the source computes
stddev = 2*sigma/s (sigma rescaled to normalized units for an axis of s
cells) and k = -0.5 * (1/stddev)^2. -/
def gauss_k (K : Type) [Field K] (s : ℕ) (sigma : K) : K :=
  -(1 / 2) * (1 / (2 * sigma / (s : K))) ^ 2

/-- Unnormalized separable Gaussian of make gauss: the product over the
mean components (innermost axis first) of E((x - mean)^2 * k) where x is
the normalized linspace coordinate of the cell on the matching axis. -/
def make_gauss_unnorm {n : ℕ} (K : Type) [Field K] (E : K → K)
    (means : Fin n → K) (size : Fin n → ℕ) (sigma : K) (v : Idx size) : K :=
  ∏ j : Fin n,
    E ((normalized_linspace_val K (size (finRev j)) ((v (finRev j)) : ℕ) - means j) ^ 2
        * gauss_k K (size (finRev j)) sigma)

/-- Gaussian heatmap synthesizer: the unnormalized Gaussian, divided when
normalize is set by its sum over the spatial axes plus the stabilizing
epsilon 1e-24. -/
def make_gauss {n : ℕ} (K : Type) [Field K] (E : K → K)
    (means : Fin n → K) (size : Fin n → ℕ) (sigma : K) (normalize : Bool)
    (v : Idx size) : K :=
  if normalize then
    make_gauss_unnorm K E means size sigma v
      / (∑ w : Idx size, make_gauss_unnorm K E means size sigma w + 1 / 10 ^ 24)
  else
    make_gauss_unnorm K E means size sigma v

/-! Helper lemmas about the normalized linspace values. -/

theorem nlin_val_eq_div {K : Type} [LinearOrderedField K] (l i : ℕ) (hl : 0 < l) :
    normalized_linspace_val K l i = (2 * (i : K) - ((l : K) - 1)) / l := by
  have hlK : (0 : K) < l := by exact_mod_cast hl
  unfold normalized_linspace_val
  field_simp
  ring

theorem nlin_val_lower {K : Type} [LinearOrderedField K] (l i : ℕ) (hl : 0 < l) :
    -(((l : K) - 1) / l) ≤ normalized_linspace_val K l i := by
  have hlK : (0 : K) < l := by exact_mod_cast hl
  unfold normalized_linspace_val
  have h2 : 0 ≤ (i : K) * (2 / l) := by positivity
  linarith

theorem nlin_val_upper {K : Type} [LinearOrderedField K] (l i : ℕ)
    (hl : 0 < l) (hi : i < l) :
    normalized_linspace_val K l i ≤ ((l : K) - 1) / l := by
  have hlK : (0 : K) < l := by exact_mod_cast hl
  have hiK : (i : K) ≤ (l : K) - 1 := by
    have : ((i : K) + 1) ≤ l := by exact_mod_cast Nat.succ_le_of_lt hi
    linarith
  rw [nlin_val_eq_div (K := K) l i hl, div_le_div_iff_of_pos_right hlK]
  linarith

theorem nlin_val_strict_mono {K : Type} [LinearOrderedField K] (l i j : ℕ)
    (hl : 0 < l) (hij : i < j) :
    normalized_linspace_val K l i < normalized_linspace_val K l j := by
  have hlK : (0 : K) < l := by exact_mod_cast hl
  have hijK : (i : K) < j := by exact_mod_cast hij
  unfold normalized_linspace_val
  have h2 : (0 : K) < 2 / l := by positivity
  have := mul_lt_mul_of_pos_right hijK h2
  linarith

theorem nlin_last_lt_one {K : Type} [LinearOrderedField K] (l : ℕ) (hl : 0 < l) :
    ((l : K) - 1) / l < 1 := by
  have hlK : (0 : K) < l := by exact_mod_cast hl
  rw [div_lt_one hlK]
  linarith

theorem nlin_neg_one_lt_first {K : Type} [LinearOrderedField K] (l : ℕ) (hl : 0 < l) :
    (-1 : K) < -(((l : K) - 1) / l) := by
  have := nlin_last_lt_one (K := K) l hl
  linarith

theorem normalized_linspace_length {K : Type} [Field K] (l : ℕ) :
    (normalized_linspace K l).length = l := by
  simp [normalized_linspace]

theorem normalized_linspace_get {K : Type} [Field K] (l i : ℕ)
    (h : i < (normalized_linspace K l).length) :
    (normalized_linspace K l).get ⟨i, h⟩ = normalized_linspace_val K l i := by
  simp [normalized_linspace, List.get_ofFn]

/-! Helper lemmas about marginals and expectations. -/

theorem marginal_total {n : ℕ} {B K : Type} [AddCommMonoid K] (size : Fin n → ℕ)
    (H : B → Idx size → K) (d : Fin n) (b : B) :
    ∑ i : Fin (size d), marginal size H d b i = ∑ v : Idx size, H b v := by
  unfold marginal
  rw [Finset.sum_comm]
  refine Finset.sum_congr rfl fun v _ => ?_
  simp [Finset.sum_ite_eq]

theorem marginal_nonneg {n : ℕ} {B K : Type} [LinearOrderedField K]
    (size : Fin n → ℕ) (H : B → Idx size → K) (d : Fin n) (b : B)
    (hpos : ∀ v, 0 ≤ H b v) (i : Fin (size d)) :
    0 ≤ marginal size H d b i := by
  refine Finset.sum_nonneg fun v _ => ?_
  by_cases hv : v d = i <;> simp [hv, hpos v]

theorem marginal_onehot {n : ℕ} {B K : Type} [Field K] (size : Fin n → ℕ)
    (H : B → Idx size → K) (b : B) (v0 : Idx size)
    (h : ∀ v, H b v = onehot K size v0 v) (d : Fin n) (i : Fin (size d)) :
    marginal size H d b i = if v0 d = i then 1 else 0 := by
  unfold marginal
  have hsummand : ∀ v : Idx size,
      (if v d = i then H b v else 0)
        = if v = v0 then (if v0 d = i then (1 : K) else 0) else 0 := by
    intro v
    rw [h v]
    unfold onehot
    by_cases hv : v = v0
    · subst hv; simp
    · simp [hv]
  rw [Finset.sum_congr rfl fun v _ => hsummand v]
  simp [Finset.sum_ite_eq']

theorem coord_expectation_onehot {n : ℕ} {B K : Type} [Field K] (size : Fin n → ℕ)
    (H : B → Idx size → K) (b : B) (v0 : Idx size)
    (h : ∀ v, H b v = onehot K size v0 v) (d : Fin n) (T : K → K) :
    coord_expectation size H d T b
      = T (normalized_linspace_val K (size d) ((v0 d : ℕ))) := by
  unfold coord_expectation
  rw [Finset.sum_congr rfl fun i _ => by rw [marginal_onehot size H b v0 h d i]]
  simp [ite_mul, Finset.sum_ite_eq]

/-- C1: for every one-hot heatmap (all probability mass on the single grid
cell v0) with any batch index type and any ndims, dsnt returns exactly the
normalized linspace coordinates of that cell, stacked innermost-axis-first:
component k of the output is the coordinate of the hot cell on spatial axis
n-1-k. -/
theorem dsnt_onehot {K : Type} [Field K] {n : ℕ} {B : Type}
    (size : Fin n → ℕ) (H : B → Idx size → K) (b : B) (v0 : Idx size)
    (h : ∀ v, H b v = onehot K size v0 v) (k : Fin n) :
    dsnt size H b k
      = normalized_linspace_val K (size (finRev k)) ((v0 (finRev k) : ℕ)) := by
  unfold dsnt
  exact coord_expectation_onehot size H b v0 h (finRev k) id

/-- Witness for C1: a one-hot 2 x 2 heatmap with the mass on cell (1, 0)
has x coordinate (component 0, innermost axis, where the hot index is 0)
equal to -1/2. -/
theorem dsnt_onehot_witness :
    dsnt (fun _ : Fin 2 => 2)
      (fun _ : Unit => onehot ℚ (fun _ : Fin 2 => 2) (fun i => if i = 0 then 1 else 0))
      () 0 = -(1 / 2) := by
  have h := dsnt_onehot (fun _ : Fin 2 => 2)
    (fun _ : Unit => onehot ℚ (fun _ : Fin 2 => 2) (fun i => if i = 0 then 1 else 0))
    () (fun i => if i = 0 then 1 else 0) (fun _ => rfl) 0
  rw [h]
  norm_num [normalized_linspace_val, finRev]

/-- C5: for every length l at least 1, the normalized linspace vector has
length l, entry i equal to -(l-1)/l + i*2/l, is symmetric about 0, strictly
increasing, has first and last entries -(l-1)/l and (l-1)/l, and all values
lie strictly inside the open interval (-1, 1). -/
theorem normalized_linspace_spec (K : Type) [LinearOrderedField K]
    (l : ℕ) (hl : 1 ≤ l) :
    (normalized_linspace K l).length = l ∧
    (∀ (i : ℕ) (h : i < (normalized_linspace K l).length),
      (normalized_linspace K l).get ⟨i, h⟩
        = -(((l : K) - 1) / l) + (i : K) * (2 / l)) ∧
    (∀ (i : ℕ) (h1 : i < (normalized_linspace K l).length)
        (h2 : l - 1 - i < (normalized_linspace K l).length),
      (normalized_linspace K l).get ⟨i, h1⟩
        + (normalized_linspace K l).get ⟨l - 1 - i, h2⟩ = 0) ∧
    (∀ (i j : ℕ) (hi : i < (normalized_linspace K l).length)
        (hj : j < (normalized_linspace K l).length), i < j →
      (normalized_linspace K l).get ⟨i, hi⟩ < (normalized_linspace K l).get ⟨j, hj⟩) ∧
    (∀ h0 : 0 < (normalized_linspace K l).length,
      (normalized_linspace K l).get ⟨0, h0⟩ = -(((l : K) - 1) / l)) ∧
    (∀ hL : l - 1 < (normalized_linspace K l).length,
      (normalized_linspace K l).get ⟨l - 1, hL⟩ = ((l : K) - 1) / l) ∧
    (∀ x ∈ normalized_linspace K l, -1 < x ∧ x < 1) := by
  have hl0 : 0 < l := hl
  have hlK : (0 : K) < l := by exact_mod_cast hl0
  have hlen : (normalized_linspace K l).length = l := normalized_linspace_length (K := K) l
  refine ⟨hlen, ?_, ?_, ?_, ?_, ?_, ?_⟩
  · intro i h
    rw [normalized_linspace_get]
    rfl
  · intro i h1 h2
    rw [normalized_linspace_get, normalized_linspace_get]
    rw [hlen] at h1
    have hi1 : i ≤ l - 1 := by omega
    rw [nlin_val_eq_div (K := K) l i hl0, nlin_val_eq_div (K := K) l (l - 1 - i) hl0]
    have hc : ((l - 1 - i : ℕ) : K) = (l : K) - 1 - i := by
      have h1K : ((l - 1 - i : ℕ) : K) = ((l - 1 - i : ℕ) : K) := rfl
      push_cast [Nat.cast_sub hi1, Nat.cast_sub hl]
      ring
    rw [hc]
    rw [div_add_div_same]
    have : 2 * (i : K) - ((l : K) - 1) + (2 * ((l : K) - 1 - i) - ((l : K) - 1)) = 0 := by
      ring
    rw [this, zero_div]
  · intro i j hi hj hij
    rw [normalized_linspace_get, normalized_linspace_get]
    exact nlin_val_strict_mono l i j hl0 hij
  · intro h0
    rw [normalized_linspace_get]
    unfold normalized_linspace_val
    simp
  · intro hL
    rw [normalized_linspace_get, nlin_val_eq_div (K := K) l (l - 1) hl0]
    have hc : ((l - 1 : ℕ) : K) = (l : K) - 1 := by
      push_cast [Nat.cast_sub hl]
      ring
    rw [hc]
    congr 1
    ring
  · intro x hx
    rw [normalized_linspace, List.mem_ofFn] at hx
    obtain ⟨i, rfl⟩ := hx
    constructor
    · exact lt_of_lt_of_le (nlin_neg_one_lt_first l hl0) (nlin_val_lower l i hl0)
    · exact lt_of_le_of_lt (nlin_val_upper l i hl0 i.isLt) (nlin_last_lt_one l hl0)

/-- Witness for C5: at l = 4 over the rationals, the vector has length 4 and
every entry lies strictly inside (-1, 1). -/
theorem normalized_linspace_spec_witness :
    (normalized_linspace ℚ 4).length = 4 ∧
    (∀ x ∈ normalized_linspace ℚ 4, -1 < x ∧ x < 1) := by
  have h := normalized_linspace_spec ℚ 4 (by decide)
  exact ⟨h.1, h.2.2.2.2.2.2⟩

/-- C6: for every one-hot heatmap (all probability mass on a single grid
cell), the coordinate variance along every spatial axis is exactly 0. -/
theorem coord_variance_onehot {K : Type} [Field K] {n : ℕ} {B : Type}
    (size : Fin n → ℕ) (H : B → Idx size → K) (b : B) (v0 : Idx size)
    (h : ∀ v, H b v = onehot K size v0 v) (d : Fin n) :
    coord_variance size H d b = 0 := by
  unfold coord_variance
  rw [coord_expectation_onehot size H b v0 h d
    (fun x => (x - coord_expectation size H d id b) ^ 2)]
  rw [coord_expectation_onehot size H b v0 h d id]
  simp

/-- Witness for C6: a one-hot heatmap on a 1-dimensional grid of 3 cells with
the mass on cell 2 has coordinate variance 0 along its only axis. -/
theorem coord_variance_onehot_witness :
    coord_variance (fun _ : Fin 1 => 3)
      (fun _ : Unit => onehot ℚ (fun _ : Fin 1 => 3) (fun _ => 2)) 0 () = 0 :=
  coord_variance_onehot (fun _ : Fin 1 => 3)
    (fun _ : Unit => onehot ℚ (fun _ : Fin 1 => 3) (fun _ => 2))
    () (fun _ => 2) (fun _ => rfl) 0

/-! Helper lemmas about list masks. -/

theorem zipWith_mul_ones {K : Type} [MulOneClass K] (L m : List K)
    (hlen : m.length = L.length) (hone : ∀ x ∈ m, x = 1) :
    List.zipWith (fun a c => a * c) L m = L := by
  induction L generalizing m with
  | nil => simp
  | cons a t ih =>
    cases m with
    | nil => simp at hlen
    | cons c s =>
      have hc : c = 1 := hone c (by simp)
      have hs : ∀ x ∈ s, x = 1 := fun x hx => hone x (by simp [hx])
      simp only [List.length_cons, Nat.succ.injEq] at hlen
      simp [hc, ih s hlen hs]

theorem zipWith_mul_zeros {K : Type} [NonUnitalNonAssocSemiring K] (L m : List K)
    (hzero : ∀ x ∈ m, x = 0) :
    (List.zipWith (fun a c => a * c) L m).sum = 0 := by
  induction L generalizing m with
  | nil => simp
  | cons a t ih =>
    cases m with
    | nil => simp
    | cons c s =>
      have hc : c = 0 := hzero c (by simp)
      simp [hc, ih s (fun x hx => hzero x (by simp [hx]))]

theorem sum_of_ones {K : Type} [AddCommMonoidWithOne K] (m : List K)
    (hone : ∀ x ∈ m, x = 1) : m.sum = (m.length : K) := by
  induction m with
  | nil => simp
  | cons c s ih =>
    have hc : c = 1 := hone c (by simp)
    have ihs := ih (fun x hx => hone x (by simp [hx]))
    simp [hc, ihs, add_comm]

/-- C7: average of per-location losses: with a mask it is the sum of the
masked losses divided by the mask sum clamped below by 1; without a mask it
is the sum divided by the element count; an all-ones mask yields exactly
the unmasked mean, and an all-zero mask yields 0. -/
theorem average_loss_spec {K : Type} [LinearOrderedField K] (L m : List K)
    (hlen : m.length = L.length) :
    average_loss L (some m)
      = (List.zipWith (fun a c => a * c) L m).sum / max m.sum 1 ∧
    average_loss L none = L.sum / (L.length : K) ∧
    ((∀ x ∈ m, x = 1) → average_loss L (some m) = average_loss L none) ∧
    ((∀ x ∈ m, x = 0) → average_loss L (some m) = 0) := by
  refine ⟨rfl, ?_, ?_, ?_⟩
  · show L.sum / ((max L.length 1 : ℕ) : K) = L.sum / (L.length : K)
    cases L with
    | nil => simp
    | cons a t => rw [Nat.max_eq_left (by simp)]
  · intro hone
    show (List.zipWith (fun a c => a * c) L m).sum / max m.sum 1
      = L.sum / ((max L.length 1 : ℕ) : K)
    rw [zipWith_mul_ones L m hlen hone, sum_of_ones m hone, hlen]
    rw [Nat.cast_max]
    norm_num
  · intro hzero
    show (List.zipWith (fun a c => a * c) L m).sum / max m.sum 1 = 0
    rw [zipWith_mul_zeros L m hzero, zero_div]

/-- Witness for C7: the losses [2, 4] over the rationals with the all-ones
mask [1, 1] average to the same value as with no mask. -/
theorem average_loss_spec_witness :
    average_loss ([2, 4] : List ℚ) (some [1, 1])
      = average_loss ([2, 4] : List ℚ) none :=
  (average_loss_spec ([2, 4] : List ℚ) [1, 1] rfl).2.2.1 (by simp)

/-- Sums over the cells of a 1-dimensional grid transport along the
canonical bijection between indices and cells. -/
theorem sum_idx_one {M : Type} [AddCommMonoid M] (s : ℕ)
    (F : Idx (fun _ : Fin 1 => s) → M) :
    ∑ v : Idx (fun _ : Fin 1 => s), F v = ∑ i : Fin s, F (fun _ => i) :=
  Fintype.sum_equiv (Equiv.funUnique (Fin 1) (Fin s)) _ _
    (fun v => congrArg F (funext fun i => congrArg v (Unique.eq_default i)))

/-! Helper lemmas for the range of the coordinate expectation. -/

theorem coord_expectation_id_bounds {K : Type} [LinearOrderedField K] {n : ℕ}
    {B : Type} (size : Fin n → ℕ) (H : B → Idx size → K) (b : B) (d : Fin n)
    (hpos : ∀ v, 0 ≤ H b v) (hsum : ∑ v : Idx size, H b v = 1)
    (hl : 0 < size d) :
    -(((size d : K) - 1) / (size d)) ≤ coord_expectation size H d id b ∧
    coord_expectation size H d id b ≤ ((size d : K) - 1) / (size d) := by
  have hmarg : ∑ i : Fin (size d), marginal size H d b i = 1 := by
    rw [marginal_total]; exact hsum
  constructor
  · calc -(((size d : K) - 1) / (size d))
        = ∑ i : Fin (size d), marginal size H d b i * -(((size d : K) - 1) / (size d)) := by
          rw [← Finset.sum_mul, hmarg, one_mul]
      _ ≤ coord_expectation size H d id b := by
          refine Finset.sum_le_sum fun i _ => ?_
          exact mul_le_mul_of_nonneg_left (nlin_val_lower (size d) (i : ℕ) hl)
            (marginal_nonneg size H d b hpos i)
  · calc coord_expectation size H d id b
        ≤ ∑ i : Fin (size d), marginal size H d b i * (((size d : K) - 1) / (size d)) := by
          refine Finset.sum_le_sum fun i _ => ?_
          exact mul_le_mul_of_nonneg_left (nlin_val_upper (size d) (i : ℕ) hl i.isLt)
            (marginal_nonneg size H d b hpos i)
      _ = ((size d : K) - 1) / (size d) := by
          rw [← Finset.sum_mul, hmarg, one_mul]

/-- C9: for every heatmap with nonnegative entries summing to 1 for a
sample, every component of the dsnt coordinate vector lies in the closed
interval [-(l-1)/l, (l-1)/l] for the matching axis length l, hence strictly
inside the open interval (-1, 1). -/
theorem dsnt_range {K : Type} [LinearOrderedField K] {n : ℕ} {B : Type}
    (size : Fin n → ℕ) (H : B → Idx size → K) (b : B)
    (hpos : ∀ v, 0 ≤ H b v) (hsum : ∑ v : Idx size, H b v = 1) (k : Fin n) :
    -(((size (finRev k) : K) - 1) / (size (finRev k))) ≤ dsnt size H b k ∧
    dsnt size H b k ≤ ((size (finRev k) : K) - 1) / (size (finRev k)) ∧
    -1 < dsnt size H b k ∧ dsnt size H b k < 1 := by
  have hne : Nonempty (Idx size) := by
    by_contra hcon
    rw [not_nonempty_iff] at hcon
    rw [Finset.univ_eq_empty, Finset.sum_empty] at hsum
    exact zero_ne_one hsum
  have hl : 0 < size (finRev k) := (hne.some (finRev k)).pos
  have hb := coord_expectation_id_bounds size H b (finRev k) hpos hsum hl
  have hdl : -(((size (finRev k) : K) - 1) / (size (finRev k))) ≤ dsnt size H b k := hb.1
  have hdu : dsnt size H b k ≤ ((size (finRev k) : K) - 1) / (size (finRev k)) := hb.2
  refine ⟨hdl, hdu, ?_, ?_⟩
  · exact lt_of_lt_of_le (nlin_neg_one_lt_first (size (finRev k)) hl) hdl
  · exact lt_of_le_of_lt hdu (nlin_last_lt_one (size (finRev k)) hl)

/-- Witness for C9: the uniform heatmap on a 1-dimensional grid of 2 cells
has its dsnt coordinate strictly inside (-1, 1). -/
theorem dsnt_range_witness :
    -1 < dsnt (fun _ : Fin 1 => 2) (fun _ : Unit => fun _ => (1 / 2 : ℚ)) () 0 ∧
    dsnt (fun _ : Fin 1 => 2) (fun _ : Unit => fun _ => (1 / 2 : ℚ)) () 0 < 1 := by
  have h := dsnt_range (fun _ : Fin 1 => 2) (fun _ : Unit => fun _ => (1 / 2 : ℚ)) ()
    (fun _ => by norm_num) (by rw [sum_idx_one 2]; norm_num [Fin.sum_univ_two]) 0
  exact ⟨h.2.2.1, h.2.2.2⟩

/-! Helper lemmas about the synthesized Gaussians, at the real exponential. -/

theorem gauss_k_nonpos (s : ℕ) (sigma : ℝ) : gauss_k ℝ s sigma ≤ 0 := by
  unfold gauss_k
  rw [neg_mul]
  exact neg_nonpos.mpr (by positivity)

theorem make_gauss_unnorm_pos {n : ℕ} (means : Fin n → ℝ) (size : Fin n → ℕ)
    (sigma : ℝ) (v : Idx size) :
    0 < make_gauss_unnorm ℝ Real.exp means size sigma v :=
  Finset.prod_pos fun _ _ => Real.exp_pos _

theorem make_gauss_unnorm_le_one {n : ℕ} (means : Fin n → ℝ) (size : Fin n → ℕ)
    (sigma : ℝ) (v : Idx size) :
    make_gauss_unnorm ℝ Real.exp means size sigma v ≤ 1 := by
  unfold make_gauss_unnorm
  refine Finset.prod_le_one (fun j _ => (Real.exp_pos _).le) (fun j _ => ?_)
  rw [Real.exp_le_one_iff]
  exact mul_nonpos_of_nonneg_of_nonpos (sq_nonneg _)
    (gauss_k_nonpos (size (finRev j)) sigma)

theorem make_gauss_unnorm_at_mean {n : ℕ} (means : Fin n → ℝ) (size : Fin n → ℕ)
    (sigma : ℝ) (v0 : Idx size)
    (hmean : ∀ j, normalized_linspace_val ℝ (size (finRev j)) ((v0 (finRev j) : ℕ))
      = means j) :
    make_gauss_unnorm ℝ Real.exp means size sigma v0 = 1 := by
  unfold make_gauss_unnorm
  refine Finset.prod_eq_one fun j _ => ?_
  rw [hmean j]
  simp

theorem make_gauss_unnorm_one_dim (mean : ℝ) (s : ℕ) (sigma : ℝ) (i : Fin s) :
    make_gauss_unnorm ℝ Real.exp (fun _ : Fin 1 => mean) (fun _ => s) sigma (fun _ => i)
      = Real.exp ((normalized_linspace_val ℝ s (i : ℕ) - mean) ^ 2 * gauss_k ℝ s sigma) := by
  unfold make_gauss_unnorm
  rw [Fin.prod_univ_one]

theorem make_gauss_sum_div {n : ℕ} (means : Fin n → ℝ) (size : Fin n → ℕ)
    (sigma : ℝ) :
    (∑ v : Idx size, make_gauss ℝ Real.exp means size sigma true v)
      = (∑ v : Idx size, make_gauss_unnorm ℝ Real.exp means size sigma v)
        / ((∑ v : Idx size, make_gauss_unnorm ℝ Real.exp means size sigma v)
            + 1 / 10 ^ 24) := by
  have hv : ∀ v : Idx size, make_gauss ℝ Real.exp means size sigma true v
      = make_gauss_unnorm ℝ Real.exp means size sigma v
        / ((∑ w : Idx size, make_gauss_unnorm ℝ Real.exp means size sigma w)
            + 1 / 10 ^ 24) := fun _ => rfl
  rw [Finset.sum_congr rfl fun v _ => hv v, ← Finset.sum_div]

/-- C10: negating sigma leaves make gauss unchanged, for every mean, size,
normalize flag and sigma: sigma enters the computation only through the
square of 2*sigma/s inside the per-axis coefficient. -/
theorem make_gauss_neg_sigma {n : ℕ} (means : Fin n → ℝ) (size : Fin n → ℕ)
    (sigma : ℝ) (normalize : Bool) (v : Idx size) :
    make_gauss ℝ Real.exp means size (-sigma) normalize v
      = make_gauss ℝ Real.exp means size sigma normalize v := by
  have hk : ∀ s : ℕ, gauss_k ℝ s (-sigma) = gauss_k ℝ s sigma := by
    intro s
    unfold gauss_k
    ring
  have hg : ∀ w : Idx size, make_gauss_unnorm ℝ Real.exp means size (-sigma) w
      = make_gauss_unnorm ℝ Real.exp means size sigma w := by
    intro w
    unfold make_gauss_unnorm
    exact Finset.prod_congr rfl fun j _ => by rw [hk]
  unfold make_gauss
  simp only [hg]

/-- C3 amended: for every mean vector, grid size and sigma, every entry of
the unnormalized make gauss output is at most 1, and whenever the mean
coincides with the normalized coordinates of a grid cell the entry at that
cell is exactly 1; so the maximum value is exactly 1.0 attained at the mean
when the mean lies on a cell center (it is strictly below 1 at every cell
otherwise, refuting the unconditional claim). -/
theorem make_gauss_unnormalized_max {n : ℕ} (means : Fin n → ℝ) (size : Fin n → ℕ)
    (sigma : ℝ) (v0 : Idx size)
    (hmean : ∀ j, normalized_linspace_val ℝ (size (finRev j)) ((v0 (finRev j) : ℕ))
      = means j) :
    make_gauss ℝ Real.exp means size sigma false v0 = 1 ∧
    ∀ v, make_gauss ℝ Real.exp means size sigma false v ≤ 1 := by
  constructor
  · show make_gauss_unnorm ℝ Real.exp means size sigma v0 = 1
    exact make_gauss_unnorm_at_mean means size sigma v0 hmean
  · intro v
    show make_gauss_unnorm ℝ Real.exp means size sigma v ≤ 1
    exact make_gauss_unnorm_le_one means size sigma v

/-- Witness for C3 amended: the test case mean (0, 0) on a 5 x 5 grid with
sigma 1: the center cell has normalized coordinates (0, 0), so the
unnormalized output attains exactly 1 there. -/
theorem make_gauss_unnormalized_max_witness :
    make_gauss ℝ Real.exp (fun _ : Fin 2 => 0) (fun _ => 5) 1 false
      (fun _ => ⟨2, by norm_num⟩) = 1 :=
  (make_gauss_unnormalized_max (fun _ : Fin 2 => 0) (fun _ => 5) 1
    (fun _ => ⟨2, by norm_num⟩)
    (fun _ => by norm_num [normalized_linspace_val])).1

/-- Counterexample to C3 as stated: mean 0 with grid size 2 and sigma 1 is a
valid input, but the two cells (the whole output) hold exp(-1/8) < 1, so the
maximum of the unnormalized output is not 1 and no entry attains 1. -/
theorem make_gauss_unnormalized_max_counterexample :
    make_gauss ℝ Real.exp (fun _ : Fin 1 => 0) (fun _ => 2) 1 false
      (fun _ => ⟨0, by norm_num⟩) < 1 ∧
    make_gauss ℝ Real.exp (fun _ : Fin 1 => 0) (fun _ => 2) 1 false
      (fun _ => ⟨1, by norm_num⟩) < 1 := by
  constructor
  · show make_gauss_unnorm ℝ Real.exp (fun _ : Fin 1 => 0) (fun _ => 2) 1
      (fun _ => ⟨0, by norm_num⟩) < 1
    rw [make_gauss_unnorm_one_dim 0 2 1 ⟨0, by norm_num⟩]
    have harg : (normalized_linspace_val ℝ 2 ((⟨0, by norm_num⟩ : Fin 2) : ℕ) - 0) ^ 2
        * gauss_k ℝ 2 1 = -(1 / 8) := by
      norm_num [normalized_linspace_val, gauss_k]
    rw [harg]
    exact Real.exp_lt_one_iff.mpr (by norm_num)
  · show make_gauss_unnorm ℝ Real.exp (fun _ : Fin 1 => 0) (fun _ => 2) 1
      (fun _ => ⟨1, by norm_num⟩) < 1
    rw [make_gauss_unnorm_one_dim 0 2 1 ⟨1, by norm_num⟩]
    have harg : (normalized_linspace_val ℝ 2 ((⟨1, by norm_num⟩ : Fin 2) : ℕ) - 0) ^ 2
        * gauss_k ℝ 2 1 = -(1 / 8) := by
      norm_num [normalized_linspace_val, gauss_k]
    rw [harg]
    exact Real.exp_lt_one_iff.mpr (by norm_num)

/-- C4 amended: for every mean, size and sigma whose unnormalized Gaussian
mass S over the grid is at least 1e-18, the normalized make gauss output
sums exactly to S / (S + 1e-24) over the spatial axes, and that sum is
within 1e-6 of 1; without a lower bound on S the 1e-6 closeness fails
(see the counterexample with a small sigma). -/
theorem make_gauss_normalized_sum {n : ℕ} (means : Fin n → ℝ) (size : Fin n → ℕ)
    (sigma : ℝ)
    (hS : 1 / 10 ^ 18
      ≤ ∑ v : Idx size, make_gauss_unnorm ℝ Real.exp means size sigma v) :
    (∑ v : Idx size, make_gauss ℝ Real.exp means size sigma true v)
      = (∑ v : Idx size, make_gauss_unnorm ℝ Real.exp means size sigma v)
        / ((∑ v : Idx size, make_gauss_unnorm ℝ Real.exp means size sigma v)
            + 1 / 10 ^ 24) ∧
    |(∑ v : Idx size, make_gauss ℝ Real.exp means size sigma true v) - 1|
      ≤ 1 / 10 ^ 6 := by
  refine ⟨make_gauss_sum_div means size sigma, ?_⟩
  rw [make_gauss_sum_div means size sigma]
  set S := ∑ v : Idx size, make_gauss_unnorm ℝ Real.exp means size sigma v with hSdef
  have hS0 : (0 : ℝ) < S := lt_of_lt_of_le (by norm_num) hS
  have hden : (0 : ℝ) < S + 1 / 10 ^ 24 := by linarith
  have hden2 : S + 1 / 10 ^ 24 ≠ 0 := ne_of_gt hden
  have habs : S / (S + 1 / 10 ^ 24) - 1 = -((1 / 10 ^ 24) / (S + 1 / 10 ^ 24)) := by
    field_simp
  rw [habs, abs_neg, abs_of_nonneg (le_of_lt (div_pos (by norm_num) hden))]
  rw [div_le_iff₀ hden]
  linarith

/-- Witness for C4 amended: mean 0 on a single-cell grid with sigma 1: the
cell center is the mean, the unnormalized mass is 1, and the normalized
output sums to within 1e-6 of 1. -/
theorem make_gauss_normalized_sum_witness :
    |(∑ v : Idx (fun _ : Fin 1 => 1),
        make_gauss ℝ Real.exp (fun _ => 0) (fun _ => 1) 1 true v) - 1|
      ≤ 1 / 10 ^ 6 := by
  refine (make_gauss_normalized_sum (fun _ => 0) (fun _ => 1) 1 ?_).2
  rw [sum_idx_one, Fin.sum_univ_one, make_gauss_unnorm_one_dim]
  norm_num [normalized_linspace_val]

/-- Counterexample to C4 as stated: mean 0, grid size 2 and sigma 1/100 > 0
are valid inputs, but both cell centers lie 1/2 away from the mean, the
unnormalized mass is 2*exp(-1250), far below the epsilon 1e-24, and the
normalized output sums to nearly 0: its distance from 1 exceeds 1e-6. -/
theorem make_gauss_normalized_sum_counterexample :
    1 / 10 ^ 6 < |(∑ v : Idx (fun _ : Fin 1 => 2),
        make_gauss ℝ Real.exp (fun _ => 0) (fun _ => 2) (1 / 100) true v) - 1| := by
  rw [make_gauss_sum_div]
  have hsum : (∑ v : Idx (fun _ : Fin 1 => 2),
      make_gauss_unnorm ℝ Real.exp (fun _ => 0) (fun _ => 2) (1 / 100) v)
      = Real.exp (-1250) + Real.exp (-1250) := by
    rw [sum_idx_one, Fin.sum_univ_two, make_gauss_unnorm_one_dim,
      make_gauss_unnorm_one_dim]
    norm_num [normalized_linspace_val, gauss_k]
  rw [hsum]
  have hexp : Real.exp (-1250) ≤ 1 / 10 ^ 19 := by
    rw [Real.exp_neg, one_div]
    apply inv_anti₀ (by norm_num)
    have h125 : (126 : ℝ) ≤ Real.exp 125 := by
      have := Real.add_one_le_exp (125 : ℝ)
      linarith
    have hpow : ((126 : ℝ)) ^ (10 : ℕ) ≤ (Real.exp 125) ^ (10 : ℕ) :=
      pow_le_pow_left₀ (by norm_num) h125 10
    have hmul : Real.exp 125 ^ (10 : ℕ) = Real.exp 1250 := by
      rw [← Real.exp_nat_mul]
      norm_num
    calc ((10 : ℝ)) ^ 19 ≤ ((126 : ℝ)) ^ (10 : ℕ) := by norm_num
      _ ≤ (Real.exp 125) ^ (10 : ℕ) := hpow
      _ = Real.exp 1250 := hmul
  set t := Real.exp (-1250) with ht
  have ht0 : 0 < t := Real.exp_pos _
  have hden : (0 : ℝ) < t + t + 1 / 10 ^ 24 := by linarith
  have hden2 : t + t + 1 / 10 ^ 24 ≠ 0 := ne_of_gt hden
  have habs : (t + t) / (t + t + 1 / 10 ^ 24) - 1
      = -((1 / 10 ^ 24) / (t + t + 1 / 10 ^ 24)) := by
    field_simp
  rw [habs, abs_neg, abs_of_nonneg (le_of_lt (div_pos (by norm_num) hden))]
  rw [lt_div_iff₀ hden]
  linarith

/-- C8: for every input activation array over a grid whose spatial axis
lengths are at least 1 (the data-model invariant), flat softmax returns an
array over the same index type whose entries are nonnegative and sum to 1
over the flattened spatial extent of each batch slice; being a pure
function of its input, it does not modify the input. -/
theorem flat_softmax_spec {n : ℕ} {B : Type} (size : Fin n → ℕ)
    (hsize : ∀ i, 0 < size i) (H : B → Idx size → ℝ) (b : B) :
    (∀ v, 0 ≤ flat_softmax ℝ Real.exp size H b v) ∧
    (∑ v : Idx size, flat_softmax ℝ Real.exp size H b v) = 1 := by
  haveI hne : Nonempty (Idx size) := ⟨fun i => ⟨0, hsize i⟩⟩
  have hpos : (0 : ℝ) < ∑ w : Idx size, Real.exp (H b w) :=
    Finset.sum_pos (fun w _ => Real.exp_pos _) Finset.univ_nonempty
  constructor
  · intro v
    exact div_nonneg (Real.exp_pos _).le hpos.le
  · unfold flat_softmax
    rw [← Finset.sum_div, div_self (ne_of_gt hpos)]

/-- Witness for C8: the all-zero activation on a 1-dimensional grid of 2
cells yields a heatmap summing to exactly 1. -/
theorem flat_softmax_spec_witness :
    (∑ v : Idx (fun _ : Fin 1 => 2),
      flat_softmax ℝ Real.exp (fun _ => 2) (fun _ : Unit => fun _ => 0) () v) = 1 :=
  (flat_softmax_spec (fun _ => 2) (fun _ => Nat.succ_pos 1)
    (fun _ : Unit => fun _ => 0) ()).2
